import Mathlib

/-
  Verification of the Range Membership-Inference Audit Engine
  (repository `privacy_meter_dev`, orchestration script `run_range_mia.py`).

  The visible source is the orchestration script; the core components
  (Likelihood-Ratio Audit Engine, Trimmed Range Aggregator, Risk Reporter)
  are imported from modules that are not part of the visible source, so
  they are modelled here from the specification, while everything that the
  script itself computes (model-pair counts, membership expansion, control
  flow of `main`) is embedded directly from the script.
-/

namespace RangeMia

/-! ## Arithmetic helpers shared by several components -/

/-- Arithmetic mean of a list of rationals, `sum / length`
(the untrimmed `mean` statistic of the aggregator and the engine's
Gaussian mean estimate). -/
def mean (l : List ℚ) : ℚ := l.sum / l.length

/-! ## `np.repeat(membership, sample_size, axis=1)` (run_range_mia.py line 149)

`np.repeat` with `axis=1` repeats every entry of every row `k` times
consecutively along the record axis. -/

/-- Embedding of `np.repeat(m, k, axis=1)` for a row-major matrix:
each element of each row is repeated `k` times in place. -/
def npRepeatAxis1 {α : Type} (m : List (List α)) (k : Nat) : List (List α) :=
  m.map (fun row => (row.map (fun x => List.replicate k x)).flatten)

/-- Row-level behaviour of `npRepeatAxis1`: position `b*k + s` (with `s < k`)
of the expanded row holds the entry at position `b` of the original row. -/
theorem join_replicate_getElem {α : Type} (row : List α) (k b s : Nat)
    (hs : s < k) :
    ((row.map (fun x => List.replicate k x)).flatten)[b * k + s]? = row[b]? := by
  induction row generalizing b with
  | nil => simp
  | cons x rest ih =>
    cases b with
    | zero =>
      simp only [List.map_cons, List.flatten_cons, Nat.zero_mul, Nat.zero_add]
      rw [List.getElem?_append_left (by simpa using hs)]
      simp [List.getElem?_replicate, hs]
    | succ b' =>
      simp only [List.map_cons, List.flatten_cons]
      have hlen : (List.replicate k x).length = k := List.length_replicate k x
      have hge : (List.replicate k x).length ≤ Nat.succ b' * k + s := by
        rw [hlen, Nat.succ_mul]
        omega
      rw [List.getElem?_append_right hge]
      have harith : Nat.succ b' * k + s - (List.replicate k x).length
          = b' * k + s := by
        rw [hlen, Nat.succ_mul]; omega
      rw [harith, ih]
      simp

/-! ## Model-pair arithmetic (run_range_mia.py lines 78-85)

`num_model_pairs = max(math.ceil(num_experiments / 2.0), num_ref_models + 1)`
and `load_models(..., num_model_pairs * 2, ...)`. -/

/-- `num_model_pairs` exactly as computed by `main`:
`max(ceil(num_experiments / 2), num_ref_models + 1)`. -/
def numModelPairs (numExperiments numRefModels : Nat) : Nat :=
  max (Nat.ceil ((numExperiments : ℚ) / 2)) (numRefModels + 1)

/-- Number of models requested from `load_models`: `num_model_pairs * 2`. -/
def modelsRequested (numExperiments numRefModels : Nat) : Nat :=
  numModelPairs numExperiments numRefModels * 2

/-! ## Trimmed Range Aggregator (spec section 4.4)

`trim_mia_scores` is imported from `ramia_scores`, which is not part of the
visible source; it is modelled from the spec. -/

/-- Median of a list of rationals: middle element of the sorted list for odd
length, average of the two middle elements for even length. -/
def median (l : List ℚ) : ℚ :=
  let s := List.insertionSort (· ≤ ·) l
  if s.length % 2 = 1 then s.getD (s.length / 2) 0
  else (s.getD (s.length / 2 - 1) 0 + s.getD (s.length / 2) 0) / 2

/-- Aggregation statistic selected by configuration: mean or median. -/
inductive AggStat where
  | statMean : AggStat
  | statMedian : AggStat
deriving DecidableEq

/-- Trim configuration: fraction to discard per tail, whether trimming is
symmetric (two-sided) or low-tail only, and the aggregation statistic. -/
structure TrimCfg where
  frac : ℚ
  twoSided : Bool
  stat : AggStat
deriving DecidableEq

/-- The configured untrimmed statistic of a score list. -/
def statOf (cfg : TrimCfg) (l : List ℚ) : ℚ :=
  match cfg.stat with
  | AggStat.statMean => mean l
  | AggStat.statMedian => median l

/-- Number of scores discarded per tail for a range group of `k` scores:
`floor(k * frac)`. -/
def trimCount (k : Nat) (frac : ℚ) : Nat := (Int.floor ((k : ℚ) * frac)).toNat

/-- Modelled from the spec: `trim_mia_scores` (Trimmed Range Aggregator,
spec section 4.4; the module `ramia_scores` is not in the visible source).
Sort the range-group scores, discard `trimCount` from each tail (symmetric)
or from the low tail only (one-sided), and return the configured statistic
of the remaining values; if trimming removes all points the aggregator
fails fast (`none`). -/
def trim_mia_scores (cfg : TrimCfg) (l : List ℚ) : Option ℚ :=
  let s := List.insertionSort (· ≤ ·) l
  let t := trimCount l.length cfg.frac
  let kept := if cfg.twoSided then (s.drop t).take (l.length - 2 * t)
              else s.drop t
  if kept.isEmpty then none else some (statOf cfg kept)

/-! ## Likelihood-Ratio Audit Engine (spec sections 4.3 and 8)

The engine lives in the `audit` module, which is not part of the visible
source; it is modelled from the spec: fit a Gaussian to the IN signals and
to the OUT signals of a record, and score the target's signal by the
log-likelihood-ratio of the two fitted densities.  With fewer than 2
reference models on a side the variance is inestimable and the engine
substitutes a population-wide pooled-variance shrinkage estimate. -/

/-- Sample variance of a list of signals; `none` when fewer than 2 values
are available, since variance cannot be estimated from fewer than 2 models. -/
def sampleVar (l : List ℚ) : Option ℚ :=
  if l.length < 2 then none
  else some ((l.map (fun x => (x - mean l) ^ 2)).sum / ((l.length : ℚ) - 1))

/-- Variance used by the engine for one reference side: the sample variance
when estimable, otherwise the population-wide pooled shrinkage estimate. -/
def varOrPooled (l : List ℚ) (pooled : ℚ) : ℚ := (sampleVar l).getD pooled

/-- Modelled from the spec: Gaussian log-likelihood of signal `x` under a
distribution with mean `μ` and variance `v`. -/
noncomputable def gaussLogLik (x μ v : ℝ) : ℝ :=
  -((x - μ) ^ 2) / (2 * v) - Real.log (2 * Real.pi * v) / 2

/-- Modelled from the spec: log-likelihood-ratio membership score — the
log-likelihood of the target's signal under the IN distribution minus its
log-likelihood under the OUT distribution. -/
noncomputable def llrScore (μi vi μo vo x : ℝ) : ℝ :=
  gaussLogLik x μi vi - gaussLogLik x μo vo

/-- Modelled from the spec: the engine's score for one (target model,
record) pair, given the IN and OUT reference signal lists for the record,
the pooled shrinkage variance, and the target's signal `x`. -/
noncomputable def engineScore (inS outS : List ℚ) (pooled : ℚ) (x : ℝ) : ℝ :=
  llrScore (mean inS) (varOrPooled inS pooled) (mean outS)
    (varOrPooled outS pooled) x

/-- The engine without the shrinkage fallback: it can only produce a score
when both reference variances are estimable. -/
noncomputable def engineScoreNoFallback (inS outS : List ℚ) (x : ℝ) :
    Option ℝ :=
  match sampleVar inS, sampleVar outS with
  | some vi, some vo => some (llrScore (mean inS) vi (mean outS) vo x)
  | _, _ => none

/-- The engine with the shrinkage fallback: it always produces a score. -/
noncomputable def engineScoreWithFallback (inS outS : List ℚ) (pooled : ℚ)
    (x : ℝ) : Option ℝ :=
  some (engineScore inS outS pooled x)

/-! ## Control flow of `main` (run_range_mia.py)

`main` is embedded as a step-by-step Except-chain over an abstract external
world (the outcome of each external collaborator call), following the
statement order of the script.  Python resolves a called name at call time
against the local scope, the module namespace and the builtins; the names
bound in each are transcribed from the script. -/

/-- Names bound in the module namespace of `run_range_mia.py`: the plain
imports (lines 3-11), the `from ... import ...` bindings (lines 13-24) and
the module-level `def main` (line 30). -/
def moduleBoundNames : List String :=
  ["argparse", "math", "os", "pickle", "time", "np", "torch", "yaml",
   "get_average_audit_results", "audit_models", "sample_auditing_dataset",
   "RangeDataset", "RangeSampler", "get_model_signals", "load_models",
   "train_models", "split_dataset_for_training", "check_configs",
   "setup_log", "initialize_seeds", "create_directories", "load_dataset",
   "trim_mia_scores", "main"]

/-- Local variables assigned inside `main` up to the audit call. -/
def mainLocalNames : List String :=
  ["parser", "args", "f", "configs", "log_dir", "directories", "logger",
   "start_time", "baseline_time", "dataset", "num_experiments",
   "num_reference_models", "num_model_pairs", "models_list", "memberships",
   "data_splits", "file", "auditing_dataset", "auditing_membership",
   "signals", "target_model_indices"]

/-- Python builtins referenced by `main`. -/
def builtinNames : List String := ["print", "open", "len", "list", "range", "max"]

/-- Whether a name resolves at the audit call site inside `main`. -/
def resolvesInMain (n : String) : Bool :=
  mainLocalNames.contains n || moduleBoundNames.contains n
    || builtinNames.contains n

/-- The configuration values of the script that drive control flow. -/
structure RunConfig where
  numExperiments : Nat
  numRefModels : Nat
  sampleSize : Nat
deriving DecidableEq

/-- Outcome of each fallible external collaborator call made by `main`, in
statement order (config check, dataset load, model load/train, range
dataset, auditing subsample, signal extraction, the audit itself). -/
structure ExternalWorld where
  checkConfigsOk : Bool
  loadDatasetOk : Bool
  modelsOk : Bool
  rangeDatasetOk : Bool
  samplingOk : Bool
  signalsOk : Bool
  auditOk : Bool
deriving DecidableEq

/-- Runtime errors that can abort `main`: an exception escaping an external
call, or a Python `NameError` for an unresolvable name. -/
inductive RunError where
  | externalError : String → RunError
  | nameError : String → RunError
deriving DecidableEq

/-- What a completed run of `main` did. -/
structure MainOutcome where
  averagingCalled : Bool
deriving DecidableEq

/-- Embedding of `main`, parameterized by the name-resolution environment
at the audit call site: each stage either fails (propagating the error) or
continues; the audit stage first resolves the name `audit_models_range` and
raises a `NameError` if it is unbound; finally
`get_average_audit_results` is called iff `len(target_model_indices) > 1`
with `target_model_indices = list(range(num_experiments))`. -/
def runMainWith (resolve : String → Bool) (cfg : RunConfig)
    (w : ExternalWorld) : Except RunError MainOutcome :=
  if !w.checkConfigsOk then Except.error (RunError.externalError "check_configs")
  else if !w.loadDatasetOk then Except.error (RunError.externalError "load_dataset")
  else if !w.modelsOk then Except.error (RunError.externalError "load_models")
  else if !w.rangeDatasetOk then Except.error (RunError.externalError "RangeDataset")
  else if !w.samplingOk then
    Except.error (RunError.externalError "sample_auditing_dataset")
  else if !w.signalsOk then
    Except.error (RunError.externalError "get_model_signals")
  else if !(resolve "audit_models_range") then
    Except.error (RunError.nameError "audit_models_range")
  else if !w.auditOk then
    Except.error (RunError.externalError "audit_models_range")
  else
    let targetModelIndices := List.range cfg.numExperiments
    Except.ok ⟨decide (1 < targetModelIndices.length)⟩

/-- `main` as written, with its actual name-resolution environment. -/
def runMain (cfg : RunConfig) (w : ExternalWorld) :
    Except RunError MainOutcome :=
  runMainWith resolvesInMain cfg w

/-- All external calls before the audit stage succeed. -/
def preAuditOk (w : ExternalWorld) : Prop :=
  w.checkConfigsOk = true ∧ w.loadDatasetOk = true ∧ w.modelsOk = true
    ∧ w.rangeDatasetOk = true ∧ w.samplingOk = true ∧ w.signalsOk = true

/-- Whether a run of `main` invoked the cross-experiment averaging. -/
def averagingInvoked (r : Except RunError MainOutcome) : Bool :=
  match r with
  | Except.ok o => o.averagingCalled
  | Except.error _ => false

/-! ## Risk Reporter (spec section 4.5)

`get_average_audit_results` is imported from the `audit` module, which is
not part of the visible source; the reporter is modelled from the spec:
sweep a threshold over the sorted score range, compute TPR and FPR at each
threshold, integrate the ROC points trapezoidally for the AUC, and exclude
single-label-class experiments from cross-experiment averaging. -/

/-- One experiment handed to the Risk Reporter: the aggregated score and
the ground-truth membership label of each audited base record. -/
abbrev Experiment := List (ℚ × Bool)

/-- Number of member records in an experiment. -/
def posCount (e : Experiment) : Nat := (e.filter (fun p => p.2)).length

/-- Number of non-member records in an experiment. -/
def negCount (e : Experiment) : Nat := (e.filter (fun p => !p.2)).length

/-- True positives at threshold `t`: members predicted positive
(score at least `t`). -/
def tpCount (e : Experiment) (t : ℚ) : Nat :=
  (e.filter (fun p => p.2 && decide (t ≤ p.1))).length

/-- False positives at threshold `t`: non-members predicted positive. -/
def fpCount (e : Experiment) (t : ℚ) : Nat :=
  (e.filter (fun p => !p.2 && decide (t ≤ p.1))).length

/-- True-positive rate at threshold `t`. -/
def tprAt (e : Experiment) (t : ℚ) : ℚ := (tpCount e t : ℚ) / (posCount e : ℚ)

/-- False-positive rate at threshold `t`. -/
def fprAt (e : Experiment) (t : ℚ) : ℚ := (fpCount e t : ℚ) / (negCount e : ℚ)

/-- Threshold sweep over the sorted score range: the distinct score values
in descending order. -/
def thresholds (e : Experiment) : List ℚ :=
  (List.insertionSort (· ≥ ·) (e.map (fun p => p.1))).dedup

/-- ROC points of the sweep, anchored at `(FPR, TPR) = (0, 0)` (the
threshold above every score) and ending at `(1, 1)` (the lowest score). -/
def rocPoints (e : Experiment) : List (ℚ × ℚ) :=
  (0, 0) :: (thresholds e).map (fun t => (fprAt e t, tprAt e t))

/-- Trapezoidal integration over a list of `(x, y)` points. -/
def trapSum : List (ℚ × ℚ) → ℚ
  | p :: q :: rest => (q.1 - p.1) * (p.2 + q.2) / 2 + trapSum (q :: rest)
  | _ => 0

/-- Modelled from the spec: the AUC of one experiment, by trapezoidal
integration over the ROC points (Risk Reporter, spec section 4.5; the
`audit` module is not in the visible source). -/
def auc (e : Experiment) : ℚ := trapSum (rocPoints e)

/-- An experiment is usable for averaging only when both label classes are
present in its selected subset. -/
def usable (e : Experiment) : Bool :=
  decide (0 < posCount e) && decide (0 < negCount e)

/-- The cross-experiment report: number of usable experiments, their
average AUC (none when no experiment is usable), and the excluded
experiments surfaced as diagnostics. -/
structure AverageReport where
  numUsable : Nat
  avgAuc : Option ℚ
  diagnostics : List Experiment

/-- Modelled from the spec: `get_average_audit_results` (Risk Reporter,
spec section 4.5; the `audit` module is not in the visible source).
Single-label-class experiments are excluded from the average and surfaced
as diagnostics rather than zero-filled. -/
def get_average_audit_results (exps : List Experiment) : AverageReport :=
  let us := exps.filter usable
  { numUsable := us.length
  , avgAuc := if us.isEmpty then none else some ((us.map auc).sum / us.length)
  , diagnostics := exps.filter (fun e => !usable e) }

end RangeMia

namespace RangeMia

/-! ## Claim theorems: C2, C4, C9 -/

/-- C2: the membership labels passed to the audit stage are the base-record
labels repeated `sample_size` times along the record axis
(`np.repeat(auditing_membership, sample_size, axis=1)`): for every model row
`i`, base record `b` and offset `s < k`, the expanded matrix's entry at
column `b*k + s` is exactly the base matrix's entry at column `b`. -/
theorem c2_membership_repeat {α : Type} (m : List (List α)) (k i b s : Nat)
    (hs : s < k) :
    ((npRepeatAxis1 m k)[i]?.bind (fun row => row[b * k + s]?))
      = (m[i]?.bind (fun row => row[b]?)) := by
  unfold npRepeatAxis1
  rw [List.getElem?_map]
  cases h : m[i]? with
  | none => simp
  | some row =>
    simp only [Option.map_some', Option.bind_some]
    exact join_replicate_getElem row k b s hs

/-- Witness for C2 at a concrete input: one model row `[true, false]`,
`sample_size = 2`, base record 1, offset 1. -/
theorem c2_membership_repeat_witness :
    ((npRepeatAxis1 [[true, false]] 2)[0]?.bind (fun row => row[1 * 2 + 1]?))
      = (([[true, false]] : List (List Bool))[0]?.bind (fun row => row[1]?)) :=
  c2_membership_repeat [[true, false]] 2 0 1 1 (by decide)

/-- C4: with `sample_size = 5`, symmetric trim fraction `0.2` and range
scores `[1, 2, 3, 4, 100]`, the aggregator drops the lowest and highest
score and returns the mean of `[2, 3, 4]`, which is `3` — not the untrimmed
mean `22`. -/
theorem c4_trimmed_concrete :
    trim_mia_scores ⟨1/5, true, AggStat.statMean⟩ [1, 2, 3, 4, 100] = some 3
      ∧ mean [1, 2, 3, 4, 100] = 22 := by
  constructor
  · norm_num [trim_mia_scores, trimCount, statOf, List.insertionSort,
      List.orderedInsert, mean]
  · norm_num [mean]

/-- C9: with `num_experiments ≥ 1`, the script requests
`2 * max(ceil(num_experiments/2), num_ref_models + 1)` models, which is at
least `num_experiments` and at least `2 * (num_ref_models + 1)`. -/
theorem c9_model_pairs_bound (e r : Nat) (_he : 1 ≤ e) :
    numModelPairs e r = max (Nat.ceil ((e : ℚ) / 2)) (r + 1)
      ∧ e ≤ modelsRequested e r
      ∧ 2 * (r + 1) ≤ modelsRequested e r := by
  have h1 : (e : ℚ) / 2 ≤ (Nat.ceil ((e : ℚ) / 2) : ℚ) := Nat.le_ceil _
  have h2 : (e : ℚ) ≤ 2 * (Nat.ceil ((e : ℚ) / 2) : ℚ) := by linarith
  have h3 : e ≤ 2 * Nat.ceil ((e : ℚ) / 2) := by exact_mod_cast h2
  refine ⟨rfl, ?_, ?_⟩ <;> unfold modelsRequested numModelPairs <;> omega

/-- Witness for C9 at `num_experiments = 3`, `num_ref_models = 1`. -/
theorem c9_model_pairs_bound_witness :
    numModelPairs 3 1 = max (Nat.ceil ((3 : ℚ) / 2)) 2
      ∧ 3 ≤ modelsRequested 3 1 ∧ 2 * 2 ≤ modelsRequested 3 1 :=
  c9_model_pairs_bound 3 1 (by decide)

/-! ## Aggregator invariance lemmas (claim C5) -/

/-- Sorting a list that is already sorted leaves it unchanged. -/
theorem insertionSort_sorted_eq (l : List ℚ) (h : List.Sorted (· ≤ ·) l) :
    List.insertionSort (· ≤ ·) l = l :=
  List.eq_of_perm_of_sorted (List.perm_insertionSort _ l)
    (List.sorted_insertionSort _ l) h

/-- The mean is invariant under permutation of the list. -/
theorem mean_perm {l1 l2 : List ℚ} (h : l1.Perm l2) : mean l1 = mean l2 := by
  unfold mean
  rw [h.sum_eq, h.length_eq]

/-- The median of the sorted list is the median of the list. -/
theorem median_sort_eq (l : List ℚ) :
    median (List.insertionSort (· ≤ ·) l) = median l := by
  unfold median
  rw [insertionSort_sorted_eq _ (List.sorted_insertionSort _ l)]

/-- Both configurable statistics are unchanged by pre-sorting the list. -/
theorem statOf_sort (cfg : TrimCfg) (l : List ℚ) :
    statOf cfg (List.insertionSort (· ≤ ·) l) = statOf cfg l := by
  unfold statOf
  cases cfg.stat with
  | statMean => exact mean_perm (List.perm_insertionSort _ l)
  | statMedian => exact median_sort_eq l

/-- C5: trimmed aggregation is invariant under permutation of the
range-point scores (sorting-based trimming), and with trim fraction 0 it
equals the configured untrimmed statistic of the full (nonempty) score
list exactly. -/
theorem c5_trim_perm_and_zero :
    (∀ (cfg : TrimCfg) (l1 l2 : List ℚ), l1.Perm l2 →
        trim_mia_scores cfg l1 = trim_mia_scores cfg l2)
      ∧ (∀ (cfg : TrimCfg) (l : List ℚ), cfg.frac = 0 → l ≠ [] →
        trim_mia_scores cfg l = some (statOf cfg l)) := by
  constructor
  · intro cfg l1 l2 h
    have hsort : List.insertionSort (· ≤ ·) l1 = List.insertionSort (· ≤ ·) l2 :=
      List.eq_of_perm_of_sorted
        ((List.perm_insertionSort _ l1).trans
          (h.trans (List.perm_insertionSort _ l2).symm))
        (List.sorted_insertionSort _ l1) (List.sorted_insertionSort _ l2)
    unfold trim_mia_scores
    rw [hsort, h.length_eq]
  · intro cfg l hf hl
    have hzero : trimCount l.length cfg.frac = 0 := by
      rw [hf]
      simp [trimCount]
    have hslen : (List.insertionSort (· ≤ ·) l).length = l.length :=
      (List.perm_insertionSort _ l).length_eq
    have htake : (List.insertionSort (· ≤ ·) l).take l.length
        = List.insertionSort (· ≤ ·) l := by
      apply List.take_of_length_le
      exact le_of_eq hslen
    have hne : (List.insertionSort (· ≤ ·) l).isEmpty = false := by
      rw [List.isEmpty_eq_false_iff_exists_mem]
      obtain ⟨x, hx⟩ := List.exists_mem_of_ne_nil l hl
      exact ⟨x, (List.perm_insertionSort _ l).mem_iff.mpr hx⟩
    unfold trim_mia_scores
    rw [hzero]
    simp only [Nat.mul_zero, Nat.sub_zero, List.drop_zero, htake, ite_self]
    rw [hne]
    simp only [Bool.false_eq_true, if_false]
    rw [statOf_sort]

/-- Witness for C5: permutation invariance on `[1,2]` vs `[2,1]`, and the
zero-trim identity on `[1,2]` with the mean statistic. -/
theorem c5_trim_perm_and_zero_witness :
    trim_mia_scores ⟨1/5, true, AggStat.statMean⟩ [1, 2]
        = trim_mia_scores ⟨1/5, true, AggStat.statMean⟩ [2, 1]
      ∧ trim_mia_scores ⟨0, true, AggStat.statMean⟩ [1, 2]
        = some (statOf ⟨0, true, AggStat.statMean⟩ [1, 2]) :=
  ⟨c5_trim_perm_and_zero.1 _ [1, 2] [2, 1] (List.Perm.swap 2 1 []),
   c5_trim_perm_and_zero.2 _ [1, 2] rfl (List.cons_ne_nil 1 [2])⟩

/-! ## Claim theorems: C3 and C6 (Likelihood-Ratio Audit Engine) -/

/-- C3: when either reference side has fewer than 2 models, the engine does
not fail: the no-fallback score is inestimable (`none`), but the engine with
the pooled-variance shrinkage fallback still returns a score for the
(model, record) pair, and on each inestimable side the variance it uses is
exactly the pooled estimate. -/
theorem c3_shrinkage_fallback (inS outS : List ℚ) (pooled : ℚ) (x : ℝ)
    (h : inS.length < 2 ∨ outS.length < 2) :
    engineScoreNoFallback inS outS x = none
      ∧ engineScoreWithFallback inS outS pooled x
          = some (engineScore inS outS pooled x)
      ∧ (inS.length < 2 → varOrPooled inS pooled = pooled)
      ∧ (outS.length < 2 → varOrPooled outS pooled = pooled) := by
  have hnone : ∀ l : List ℚ, l.length < 2 → sampleVar l = none := by
    intro l hl
    simp [sampleVar, hl]
  refine ⟨?_, rfl, fun h2 => by simp [varOrPooled, hnone inS h2],
    fun h2 => by simp [varOrPooled, hnone outS h2]⟩
  cases h with
  | inl h2 =>
    cases ho : sampleVar outS <;>
      simp [engineScoreNoFallback, hnone inS h2, ho]
  | inr h2 =>
    cases hi : sampleVar inS <;>
      simp [engineScoreNoFallback, hnone outS h2, hi]

/-- Witness for C3 with one IN reference model (`[1]`) and two OUT
reference models (`[1, 2]`). -/
theorem c3_shrinkage_fallback_witness :
    engineScoreNoFallback [1] [1, 2] 0 = none
      ∧ engineScoreWithFallback [1] [1, 2] 1 0
          = some (engineScore [1] [1, 2] 1 0)
      ∧ ((1 : Nat) < 2 → varOrPooled [1] 1 = 1)
      ∧ ((2 : Nat) < 2 → varOrPooled [1, 2] 1 = 1) :=
  c3_shrinkage_fallback [1] [1, 2] 1 0 (Or.inl (by decide))

/-- For equal fitted variances, the Gaussian log-likelihood-ratio is
non-decreasing in the evaluated signal whenever the IN mean is at least the
OUT mean. -/
theorem llr_equal_var_mono (μi μo v x1 x2 : ℝ) (hv : 0 < v) (hm : μo ≤ μi)
    (hx : x1 ≤ x2) : llrScore μi v μo v x1 ≤ llrScore μi v μo v x2 := by
  have key : ∀ x : ℝ, llrScore μi v μo v x
      = ((μi - μo) * (2 * x - μi - μo)) / (2 * v) := by
    intro x
    unfold llrScore gaussLogLik
    field_simp
    ring
  rw [key x1, key x2]
  rw [div_le_div_iff₀ (by linarith) (by linarith)]
  nlinarith [mul_le_mul_of_nonneg_left
    (show 2 * x1 - μi - μo ≤ 2 * x2 - μi - μo by linarith)
    (show (0:ℝ) ≤ μi - μo by linarith), hv.le]

/-- C6 (counterexample): the engine score is not monotonically
non-decreasing in the target's signal for every fixed pair of fitted
distributions: with IN signals `[-1, 1]` (mean 0, variance 2) and OUT
signals `[1, 3]` (mean 2, variance 2), the score at signal 1 is strictly
below the score at signal 0, although `0 ≤ 1`. -/
theorem c6_llr_not_monotone :
    ((0:ℝ) ≤ 1)
      ∧ engineScore [-1, 1] [1, 3] 1 1 < engineScore [-1, 1] [1, 3] 1 0 := by
  refine ⟨by norm_num, ?_⟩
  have hvi : varOrPooled [-1, 1] 1 = 2 := by
    norm_num [varOrPooled, sampleVar, mean]
  have hvo : varOrPooled [1, 3] 1 = 2 := by
    norm_num [varOrPooled, sampleVar, mean]
  have hmi : mean [-1, 1] = 0 := by norm_num [mean]
  have hmo : mean [1, 3] = 2 := by norm_num [mean]
  unfold engineScore
  rw [hvi, hvo, hmi, hmo]
  unfold llrScore gaussLogLik
  push_cast
  ring_nf
  norm_num

/-- C6 (amended): for a fixed pair of fitted reference distributions with
equal positive variances and IN mean at least OUT mean, the engine score is
monotonically non-decreasing in the target's signal value. -/
theorem c6_llr_monotone_equal_var (inS outS : List ℚ) (pooled : ℚ)
    (x1 x2 : ℝ) (hveq : varOrPooled inS pooled = varOrPooled outS pooled)
    (hvpos : 0 < varOrPooled inS pooled) (hmean : mean outS ≤ mean inS)
    (hx : x1 ≤ x2) :
    engineScore inS outS pooled x1 ≤ engineScore inS outS pooled x2 := by
  unfold engineScore
  rw [← hveq]
  exact llr_equal_var_mono _ _ _ x1 x2 (by exact_mod_cast hvpos)
    (by exact_mod_cast hmean) hx

/-- Witness for the amended C6 with IN signals `[1, 3]`, OUT signals
`[-1, 1]` (equal variances 2, IN mean 2 above OUT mean 0). -/
theorem c6_llr_monotone_equal_var_witness :
    engineScore [1, 3] [-1, 1] 1 0 ≤ engineScore [1, 3] [-1, 1] 1 1 :=
  c6_llr_monotone_equal_var [1, 3] [-1, 1] 1 0 1
    (by norm_num [varOrPooled, sampleVar, mean])
    (by norm_num [varOrPooled, sampleVar, mean])
    (by norm_num [mean]) (by norm_num)

/-! ## Claim theorems: C1 and C10 (control flow of `main`) -/

/-- C1: for every configuration, a run of `main` can never succeed, and in
any run in which all external stages before the audit succeed, execution
reaches the audit stage and then fails with the unbound-name error for
`audit_models_range`: the module imports only bind `audit_models`, and no
local, module-level or builtin binding for `audit_models_range` exists. -/
theorem c1_main_audit_unbound (cfg : RunConfig) (w : ExternalWorld) :
    (∀ o : MainOutcome, runMain cfg w ≠ Except.ok o)
      ∧ (preAuditOk w →
        runMain cfg w = Except.error (RunError.nameError "audit_models_range")) := by
  have hres : resolvesInMain "audit_models_range" = false := by decide
  constructor
  · intro o
    unfold runMain runMainWith
    rw [hres]
    split_ifs <;> simp_all
  · rintro ⟨h1, h2, h3, h4, h5, h6⟩
    unfold runMain runMainWith
    rw [hres, h1, h2, h3, h4, h5, h6]
    rfl

/-- Witness for C1: a concrete configuration and a world in which every
pre-audit external call succeeds. -/
theorem c1_main_audit_unbound_witness :
    runMain ⟨1, 1, 5⟩ ⟨true, true, true, true, true, true, true⟩
      = Except.error (RunError.nameError "audit_models_range") :=
  (c1_main_audit_unbound ⟨1, 1, 5⟩
    ⟨true, true, true, true, true, true, true⟩).2
    ⟨rfl, rfl, rfl, rfl, rfl, rfl⟩

/-- C10 (counterexample): cross-experiment averaging is not invoked when
more than one experiment is configured — with `num_experiments = 2` and
every external call succeeding, `main` aborts at the unbound
`audit_models_range` and `get_average_audit_results` is never reached. -/
theorem c10_average_not_reached :
    1 < (⟨2, 1, 5⟩ : RunConfig).numExperiments
      ∧ averagingInvoked
          (runMain ⟨2, 1, 5⟩ ⟨true, true, true, true, true, true, true⟩)
        = false := by
  constructor
  · decide
  · decide

/-- C10 (amended): the call to `get_average_audit_results` is guarded by
`len(target_model_indices) > 1` with
`target_model_indices = list(range(num_experiments))`: in any run in which
the audit stage completes (the name `audit_models_range` resolves and the
audit call succeeds), averaging is invoked iff `num_experiments > 1`, and
with `num_experiments = 1` it is never invoked. -/
theorem c10_average_iff_audit_resolves (resolve : String → Bool)
    (cfg : RunConfig) (w : ExternalWorld)
    (hres : resolve "audit_models_range" = true) (hpre : preAuditOk w)
    (haud : w.auditOk = true) :
    (averagingInvoked (runMainWith resolve cfg w) = true
        ↔ 1 < cfg.numExperiments)
      ∧ (cfg.numExperiments = 1 →
        averagingInvoked (runMainWith resolve cfg w) = false) := by
  obtain ⟨h1, h2, h3, h4, h5, h6⟩ := hpre
  unfold runMainWith
  rw [hres, h1, h2, h3, h4, h5, h6, haud]
  simp only [Bool.not_true, Bool.false_eq_true, if_false, averagingInvoked,
    List.length_range, decide_eq_true_eq]
  exact ⟨trivial, fun h => by simp [h]⟩

/-! ## Risk Reporter lemmas (claim C7) -/

/-- The last element (with default) of a nonempty list is a member. -/
theorem getLastD_cons_mem {α : Type} :
    ∀ (l : List α) (a d : α), (a :: l).getLastD d ∈ a :: l := by
  intro l
  induction l with
  | nil =>
    intro a d
    simp [List.getLastD]
  | cons b t ih =>
    intro a d
    rw [List.getLastD_cons]
    exact List.mem_cons_of_mem a (ih b a)

/-- In a descending-sorted list the last element is a lower bound. -/
theorem sorted_ge_lastD_le :
    ∀ (l : List ℚ) (d : ℚ), List.Sorted (· ≥ ·) l →
      ∀ x ∈ l, l.getLastD d ≤ x := by
  intro l
  induction l with
  | nil =>
    intro d _ x hx
    cases hx
  | cons a rest ih =>
    intro d hs x hx
    rw [List.getLastD_cons]
    rcases List.mem_cons.mp hx with heq | hxrest
    · have hm : rest.getLastD a ∈ a :: rest := by
        have h1 := getLastD_cons_mem rest a d
        rwa [List.getLastD_cons] at h1
      rw [heq]
      rcases List.mem_cons.mp hm with h2 | h2
      · exact le_of_eq h2
      · exact List.rel_of_sorted_cons hs _ h2
    · exact ih a hs.of_cons x hxrest

/-- `getLastD` commutes with `map` on a nonempty list. -/
theorem map_getLastD {α β : Type} (f : α → β) :
    ∀ (l : List α) (a : α),
      ((a :: l).map f).getLastD (f a) = f ((a :: l).getLastD a) := by
  intro l
  induction l with
  | nil =>
    intro a
    simp [List.getLastD]
  | cons b t ih =>
    intro a
    calc ((a :: b :: t).map f).getLastD (f a)
        = ((b :: t).map f).getLastD (f b) := by
          simp only [List.map_cons, List.getLastD_cons]
      _ = f ((b :: t).getLastD b) := ih b
      _ = f ((a :: b :: t).getLastD a) := by
          simp only [List.getLastD_cons]

/-- At any threshold, the true positives are among the members. -/
theorem tpCount_le_posCount (e : Experiment) (t : ℚ) :
    tpCount e t ≤ posCount e :=
  List.Sublist.length_le (List.monotone_filter_right e
    (fun _p hp => ((Bool.and_eq_true _ _).mp hp).1))

/-- Lowering the threshold cannot lose false positives. -/
theorem fpCount_antitone (e : Experiment) {t1 t2 : ℚ} (h : t2 ≤ t1) :
    fpCount e t1 ≤ fpCount e t2 :=
  List.Sublist.length_le (List.monotone_filter_right e (fun p hp => by
    simp only [Bool.and_eq_true, decide_eq_true_eq] at hp ⊢
    exact ⟨hp.1, le_trans h hp.2⟩))

/-- TPR is nonnegative. -/
theorem tprAt_nonneg (e : Experiment) (t : ℚ) : 0 ≤ tprAt e t :=
  div_nonneg (Nat.cast_nonneg _) (Nat.cast_nonneg _)

/-- FPR is nonnegative. -/
theorem fprAt_nonneg (e : Experiment) (t : ℚ) : 0 ≤ fprAt e t :=
  div_nonneg (Nat.cast_nonneg _) (Nat.cast_nonneg _)

/-- TPR is at most one when members are present. -/
theorem tprAt_le_one (e : Experiment) (t : ℚ) (hP : 0 < posCount e) :
    tprAt e t ≤ 1 := by
  unfold tprAt
  rw [div_le_one (by exact_mod_cast hP)]
  exact_mod_cast tpCount_le_posCount e t

/-- FPR does not decrease as the threshold is lowered. -/
theorem fprAt_antitone (e : Experiment) {t1 t2 : ℚ} (h : t2 ≤ t1) :
    fprAt e t1 ≤ fprAt e t2 := by
  unfold fprAt
  rcases Nat.eq_zero_or_pos (negCount e) with h0 | hpos
  · simp [h0]
  · have hmono : (fpCount e t1 : ℚ) ≤ (fpCount e t2 : ℚ) := by
      exact_mod_cast fpCount_antitone e h
    have hc : (0:ℚ) < (negCount e : ℚ) := by exact_mod_cast hpos
    exact (div_le_div_iff_of_pos_right hc).mpr hmono

/-- The threshold list is sorted in descending order. -/
theorem sorted_thresholds (e : Experiment) :
    List.Sorted (· ≥ ·) (thresholds e) :=
  List.Pairwise.sublist (List.dedup_sublist _)
    (List.sorted_insertionSort _ _)

/-- A value is a threshold iff it occurs among the scores. -/
theorem mem_thresholds (e : Experiment) {s : ℚ} :
    s ∈ thresholds e ↔ s ∈ e.map (fun p => p.1) := by
  unfold thresholds
  rw [List.mem_dedup]
  exact (List.perm_insertionSort _ _).mem_iff

/-- A positive member count provides a member record. -/
theorem exists_member (e : Experiment) (hP : 0 < posCount e) :
    ∃ p, p ∈ e ∧ p.2 = true := by
  unfold posCount at hP
  obtain ⟨p, hp⟩ := List.exists_mem_of_ne_nil _ (List.length_pos.mp hP)
  rw [List.mem_filter] at hp
  exact ⟨p, hp.1, hp.2⟩

/-- A positive false-positive count provides a non-member with a score at
least the threshold. -/
theorem exists_fp_pair (e : Experiment) (t : ℚ) (hfp : 0 < fpCount e t) :
    ∃ q, q ∈ e ∧ q.2 = false ∧ t ≤ q.1 := by
  unfold fpCount at hfp
  obtain ⟨q, hq⟩ := List.exists_mem_of_ne_nil _ (List.length_pos.mp hfp)
  rw [List.mem_filter] at hq
  obtain ⟨hqe, hq2⟩ := hq
  simp only [Bool.and_eq_true, Bool.not_eq_true', decide_eq_true_eq] at hq2
  exact ⟨q, hqe, hq2.1, hq2.2⟩

/-- An experiment with members is nonempty. -/
theorem e_ne_nil_of_pos (e : Experiment) (hP : 0 < posCount e) : e ≠ [] := by
  obtain ⟨p, hp, _⟩ := exists_member e hP
  exact List.ne_nil_of_mem hp

/-- A nonempty experiment has a nonempty threshold list. -/
theorem thresholds_ne_nil (e : Experiment) (h : e ≠ []) :
    thresholds e ≠ [] := by
  obtain ⟨p, hp⟩ := List.exists_mem_of_ne_nil e h
  exact List.ne_nil_of_mem
    ((mem_thresholds e).mpr (List.mem_map_of_mem _ hp))

/-- At the lowest threshold every non-member is predicted positive. -/
theorem fpCount_lastThreshold (e : Experiment) :
    fpCount e ((thresholds e).getLastD 0) = negCount e := by
  unfold fpCount negCount
  apply congrArg List.length
  apply List.filter_congr
  intro p hp
  have hmem : p.1 ∈ thresholds e :=
    (mem_thresholds e).mpr (List.mem_map_of_mem _ hp)
  have hle : (thresholds e).getLastD 0 ≤ p.1 :=
    sorted_ge_lastD_le _ 0 (sorted_thresholds e) _ hmem
  rw [decide_eq_true hle, Bool.and_true]

/-- At the lowest threshold the FPR is exactly 1. -/
theorem fprAt_lastThreshold (e : Experiment) (hN : 0 < negCount e) :
    fprAt e ((thresholds e).getLastD 0) = 1 := by
  unfold fprAt
  rw [fpCount_lastThreshold e]
  exact div_self (Nat.cast_ne_zero.mpr (Nat.pos_iff_ne_zero.mp hN))

/-- The `x`-coordinate of the final ROC point is the FPR at the lowest
threshold. -/
theorem rocLast (e : Experiment) (h : e ≠ []) :
    ((rocPoints e).getLastD (0, 0)).1
      = fprAt e ((thresholds e).getLastD 0) := by
  unfold rocPoints
  obtain ⟨t, ts', hts⟩ : ∃ t ts', thresholds e = t :: ts' := by
    cases hcase : thresholds e with
    | nil => exact absurd hcase (thresholds_ne_nil e h)
    | cons t ts' => exact ⟨t, ts', rfl⟩
  rw [hts, List.getLastD_cons, List.map_cons, List.getLastD_cons]
  have hmap := map_getLastD (fun u => (fprAt e u, tprAt e u)) ts' t
  rw [List.map_cons, List.getLastD_cons] at hmap
  rw [hmap]
  simp only [List.getLastD_cons]

/-- Bounds for the trapezoidal sum over a chain of points with
non-decreasing `x` and `y` inside `[0, 1]`. -/
theorem trapSum_nonneg_le :
    ∀ (pts : List (ℚ × ℚ)) (p : ℚ × ℚ),
      List.Chain' (fun a b => a.1 ≤ b.1) (p :: pts) →
      (∀ q ∈ p :: pts, 0 ≤ q.2 ∧ q.2 ≤ 1) →
      0 ≤ trapSum (p :: pts)
        ∧ trapSum (p :: pts) ≤ ((p :: pts).getLastD (0, 0)).1 - p.1 := by
  intro pts
  induction pts with
  | nil =>
    intro p _ _
    simp [trapSum, List.getLastD]
  | cons q rest ih =>
    intro p hchain hy
    rw [List.chain'_cons] at hchain
    have IH := ih q hchain.2 (fun r hr => hy r (List.mem_cons_of_mem p hr))
    have hyp := hy p (List.mem_cons_self p _)
    have hyq := hy q (List.mem_cons_of_mem p (List.mem_cons_self q rest))
    have hterm0 : 0 ≤ (q.1 - p.1) * (p.2 + q.2) / 2 := by
      apply div_nonneg _ (by norm_num)
      exact mul_nonneg (by linarith [hchain.1]) (by linarith [hyp.1, hyq.1])
    have hterm1 : (q.1 - p.1) * (p.2 + q.2) / 2 ≤ q.1 - p.1 := by
      nlinarith [hchain.1, hyp.1, hyp.2, hyq.1, hyq.2]
    have hLast : ((p :: q :: rest).getLastD (0, 0))
        = ((q :: rest).getLastD (0, 0)) := by
      simp only [List.getLastD_cons]
    constructor
    · have h1 := IH.1
      simp only [trapSum]
      linarith
    · have h2 := IH.2
      simp only [trapSum]
      rw [hLast]
      linarith

/-- The trapezoidal sum telescopes to the total `x`-advance when every
segment is either vertical in `x` or runs at height `y = 1`. -/
theorem trapSum_telescope :
    ∀ (pts : List (ℚ × ℚ)) (p : ℚ × ℚ),
      List.Chain' (fun a b => b.1 = a.1 ∨ (a.2 = 1 ∧ b.2 = 1)) (p :: pts) →
      trapSum (p :: pts) = ((p :: pts).getLastD (0, 0)).1 - p.1 := by
  intro pts
  induction pts with
  | nil =>
    intro p _
    simp [trapSum, List.getLastD]
  | cons q rest ih =>
    intro p hchain
    rw [List.chain'_cons] at hchain
    have IH := ih q hchain.2
    have hLast : ((p :: q :: rest).getLastD (0, 0))
        = ((q :: rest).getLastD (0, 0)) := by
      simp only [List.getLastD_cons]
    simp only [trapSum]
    rw [hLast, IH]
    rcases hchain.1 with heq | ⟨h1, h2⟩
    · rw [heq]; ring
    · rw [h1, h2]; ring

/-- Two chains over the same list combine into a conjunction chain. -/
theorem chain'_and_of {α : Type} {R S : α → α → Prop} :
    ∀ {l : List α}, List.Chain' R l → List.Chain' S l →
      List.Chain' (fun a b => R a b ∧ S a b) l := by
  intro l
  induction l with
  | nil =>
    intro _ _
    exact List.chain'_nil
  | cons a rest ih =>
    cases rest with
    | nil =>
      intro _ _
      exact List.chain'_singleton a
    | cons b tail =>
      intro h1 h2
      rw [List.chain'_cons] at h1 h2 ⊢
      exact ⟨⟨h1.1, h2.1⟩, ih h1.2 h2.2⟩

/-- In a descending-sorted list that contains every value of `S` (or sits
entirely below a value), no value of `S` lies strictly between two adjacent
elements. -/
theorem sorted_chain_noBetween (S : List ℚ) :
    ∀ ts : List ℚ, List.Sorted (· ≥ ·) ts →
      (∀ s ∈ S, s ∈ ts ∨ ∀ u ∈ ts, u ≤ s) →
      List.Chain' (fun a b => ∀ s ∈ S, ¬(b < s ∧ s < a)) ts := by
  intro ts
  induction ts with
  | nil =>
    intro _ _
    exact List.chain'_nil
  | cons a rest ih =>
    intro hsort hall
    cases rest with
    | nil => exact List.chain'_singleton a
    | cons b tail =>
      rw [List.chain'_cons]
      constructor
      · rintro s hs ⟨hbs, hsa⟩
        rcases hall s hs with hmem | habove
        · rcases List.mem_cons.mp hmem with heq | hsrest
          · exact absurd (heq ▸ hsa) (lt_irrefl a)
          · rcases List.mem_cons.mp hsrest with heq | hstail
            · exact absurd (heq ▸ hbs) (lt_irrefl b)
            · have hge : b ≥ s :=
                List.rel_of_sorted_cons hsort.of_cons s hstail
              exact absurd hbs (not_lt.mpr hge)
        · have := habove a (List.mem_cons_self _ _)
          exact absurd hsa (not_lt.mpr this)
      · apply ih hsort.of_cons
        intro s hs
        rcases hall s hs with hmem | habove
        · rcases List.mem_cons.mp hmem with heq | hsrest
          · right
            intro u hu
            rw [heq]
            exact List.rel_of_sorted_cons hsort u hu
          · left
            exact hsrest
        · right
          intro u hu
          exact habove u (List.mem_cons_of_mem a hu)

/-- Under perfect separation, any threshold that admits a false positive
already admits every member as a true positive. -/
theorem tpCount_full_of_fp_pos (e : Experiment) (t : ℚ)
    (hsep : ∀ p ∈ e, ∀ q ∈ e, p.2 = true → q.2 = false → q.1 < p.1)
    (hfp : 0 < fpCount e t) : tpCount e t = posCount e := by
  obtain ⟨q, hqe, hq2, hqt⟩ := exists_fp_pair e t hfp
  unfold tpCount posCount
  apply congrArg List.length
  apply List.filter_congr
  intro p hp
  cases hp2 : p.2 with
  | false => simp [hp2]
  | true =>
    have hlt := hsep p hp q hqe hp2 hq2
    have hle : t ≤ p.1 := le_trans hqt (le_of_lt hlt)
    simp [hp2, hle]

/-- Under perfect separation with members present, the top threshold
admits no false positive. -/
theorem fpCount_head_zero (e : Experiment) (t : ℚ) (rest : List ℚ)
    (hts : thresholds e = t :: rest) (hP : 0 < posCount e)
    (hsep : ∀ p ∈ e, ∀ q ∈ e, p.2 = true → q.2 = false → q.1 < p.1) :
    fpCount e t = 0 := by
  by_contra hne
  obtain ⟨q, hqe, hq2, hqt⟩ :=
    exists_fp_pair e t (Nat.pos_of_ne_zero hne)
  obtain ⟨p, hpe, hp2⟩ := exists_member e hP
  have hlt := hsep p hpe q hqe hp2 hq2
  have hpmem : p.1 ∈ thresholds e :=
    (mem_thresholds e).mpr (List.mem_map_of_mem _ hpe)
  rw [hts] at hpmem
  have hsorted := sorted_thresholds e
  rw [hts] at hsorted
  have hple : p.1 ≤ t := by
    rcases List.mem_cons.mp hpmem with heq | hmem
    · exact le_of_eq heq
    · exact List.rel_of_sorted_cons hsorted _ hmem
  linarith

/-- Under perfect separation, an adjacent pair of thresholds with no score
strictly between yields a ROC segment that is either vertical in `x` or
runs at `y = 1`. -/
theorem roc_adjacent (e : Experiment) (hP : 0 < posCount e)
    (hsep : ∀ p ∈ e, ∀ q ∈ e, p.2 = true → q.2 = false → q.1 < p.1)
    {a b : ℚ} (hab : a ≥ b)
    (hnb : ∀ s ∈ e.map (fun p => p.1), ¬(b < s ∧ s < a)) :
    fprAt e b = fprAt e a ∨ (tprAt e a = 1 ∧ tprAt e b = 1) := by
  rcases Nat.eq_zero_or_pos (fpCount e b) with h0 | hpos
  · left
    have ha0 : fpCount e a = 0 :=
      Nat.le_zero.mp (h0 ▸ fpCount_antitone e hab)
    unfold fprAt
    rw [h0, ha0]
  · right
    have htpb : tpCount e b = posCount e :=
      tpCount_full_of_fp_pos e b hsep hpos
    obtain ⟨q, hqe, hq2, hqt⟩ := exists_fp_pair e b hpos
    have htpa : tpCount e a = posCount e := by
      unfold tpCount posCount
      apply congrArg List.length
      apply List.filter_congr
      intro p hp
      cases hp2 : p.2 with
      | false => simp [hp2]
      | true =>
        have hlt := hsep p hp q hqe hp2 hq2
        have hap : a ≤ p.1 := by
          by_contra hcon
          push_neg at hcon
          exact hnb p.1 (List.mem_map_of_mem _ hp)
            ⟨lt_of_le_of_lt hqt hlt, hcon⟩
        simp [hp2, hap]
    have hPne : (posCount e : ℚ) ≠ 0 :=
      Nat.cast_ne_zero.mpr (Nat.pos_iff_ne_zero.mp hP)
    constructor
    · unfold tprAt
      rw [htpa]
      exact div_self hPne
    · unfold tprAt
      rw [htpb]
      exact div_self hPne

/-- With both label classes present, the trapezoidal AUC lies in `[0, 1]`. -/
theorem auc_mem_unit (e : Experiment) (hP : 0 < posCount e)
    (hN : 0 < negCount e) : 0 ≤ auc e ∧ auc e ≤ 1 := by
  have hene := e_ne_nil_of_pos e hP
  have hchain : List.Chain' (fun a b => a.1 ≤ b.1) (rocPoints e) := by
    unfold rocPoints
    rw [List.chain'_cons']
    constructor
    · intro y hy
      have hym := List.mem_of_mem_head? hy
      obtain ⟨u, hu, rfl⟩ := List.mem_map.mp hym
      exact fprAt_nonneg e u
    · rw [List.chain'_map]
      apply List.Chain'.imp ?_ (List.Pairwise.chain' (sorted_thresholds e))
      intro a b hab
      exact fprAt_antitone e hab
  have hy : ∀ q ∈ rocPoints e, 0 ≤ q.2 ∧ q.2 ≤ 1 := by
    intro q hq
    unfold rocPoints at hq
    rcases List.mem_cons.mp hq with rfl | hmem
    · exact ⟨le_refl 0, by norm_num⟩
    · obtain ⟨u, hu, rfl⟩ := List.mem_map.mp hmem
      exact ⟨tprAt_nonneg e u, tprAt_le_one e u hP⟩
  have hbounds := trapSum_nonneg_le
    ((thresholds e).map fun u => (fprAt e u, tprAt e u)) (0, 0) hchain hy
  have hlast : ((rocPoints e).getLastD (0, 0)).1 = 1 := by
    rw [rocLast e hene]
    exact fprAt_lastThreshold e hN
  refine ⟨hbounds.1, ?_⟩
  have h2 : auc e
      ≤ ((rocPoints e).getLastD (0, 0)).1 - ((0:ℚ), (0:ℚ)).1 := hbounds.2
  rw [hlast] at h2
  simpa using h2

/-- Under perfect separation (every member score strictly above every
non-member score) with both classes present, the trapezoidal AUC is
exactly 1. -/
theorem auc_perfect (e : Experiment) (hP : 0 < posCount e)
    (hN : 0 < negCount e)
    (hsep : ∀ p ∈ e, ∀ q ∈ e, p.2 = true → q.2 = false → q.1 < p.1) :
    auc e = 1 := by
  have hene := e_ne_nil_of_pos e hP
  obtain ⟨t, ts', hts⟩ : ∃ t ts', thresholds e = t :: ts' := by
    cases hcase : thresholds e with
    | nil => exact absurd hcase (thresholds_ne_nil e hene)
    | cons t ts' => exact ⟨t, ts', rfl⟩
  have hnoB : List.Chain'
      (fun a b => a ≥ b ∧ ∀ s ∈ e.map (fun p => p.1), ¬(b < s ∧ s < a))
      (thresholds e) :=
    chain'_and_of (List.Pairwise.chain' (sorted_thresholds e))
      (sorted_chain_noBetween _ _ (sorted_thresholds e)
        (fun s hs => Or.inl ((mem_thresholds e).mpr hs)))
  have hchain : List.Chain' (fun a b => b.1 = a.1 ∨ (a.2 = 1 ∧ b.2 = 1))
      (rocPoints e) := by
    have hm : List.Chain' (fun a b => b.1 = a.1 ∨ (a.2 = 1 ∧ b.2 = 1))
        ((thresholds e).map fun u => (fprAt e u, tprAt e u)) := by
      rw [List.chain'_map]
      apply List.Chain'.imp ?_ hnoB
      rintro a b ⟨hab, hnb⟩
      exact roc_adjacent e hP hsep hab hnb
    unfold rocPoints
    rw [List.chain'_cons']
    refine ⟨?_, hm⟩
    intro y hy
    rw [hts, List.map_cons, List.head?_cons] at hy
    rw [Option.mem_some_iff] at hy
    left
    rw [← hy]
    have h0 : fpCount e t = 0 := fpCount_head_zero e t ts' hts hP hsep
    show fprAt e t = 0
    unfold fprAt
    rw [h0]
    simp
  have htel := trapSum_telescope
    ((thresholds e).map fun u => (fprAt e u, tprAt e u)) (0, 0) hchain
  have hlast : ((rocPoints e).getLastD (0, 0)).1 = 1 := by
    rw [rocLast e hene]
    exact fprAt_lastThreshold e hN
  have h2 : auc e
      = ((rocPoints e).getLastD (0, 0)).1 - ((0:ℚ), (0:ℚ)).1 := htel
  rw [h2, hlast]
  norm_num

/-! ## Claim theorems: C7 and C8 (Risk Reporter) -/

/-- C7: for an experiment containing both label classes, the trapezoidal
AUC over the ROC sweep lies in `[0, 1]`; and when every member score is
strictly greater than every non-member score, the AUC is exactly 1. -/
theorem c7_auc_bounds_and_perfect (e : Experiment)
    (hP : 0 < posCount e) (hN : 0 < negCount e) :
    (0 ≤ auc e ∧ auc e ≤ 1)
      ∧ ((∀ p ∈ e, ∀ q ∈ e, p.2 = true → q.2 = false → q.1 < p.1) →
        auc e = 1) :=
  ⟨auc_mem_unit e hP hN, fun hsep => auc_perfect e hP hN hsep⟩

/-- Witness for C7 at the two-record experiment with a member scoring 2
and a non-member scoring 1. -/
theorem c7_auc_bounds_and_perfect_witness :
    (0 ≤ auc [((2:ℚ), true), ((1:ℚ), false)]
        ∧ auc [((2:ℚ), true), ((1:ℚ), false)] ≤ 1)
      ∧ ((∀ p ∈ ([((2:ℚ), true), ((1:ℚ), false)] : Experiment),
          ∀ q ∈ ([((2:ℚ), true), ((1:ℚ), false)] : Experiment),
          p.2 = true → q.2 = false → q.1 < p.1) →
        auc [((2:ℚ), true), ((1:ℚ), false)] = 1) :=
  c7_auc_bounds_and_perfect [((2:ℚ), true), ((1:ℚ), false)]
    (by decide) (by decide)

/-- C8: an experiment whose labels contain only one class is excluded from
the cross-experiment averages and surfaced as a diagnostic; and when the
only experiment is 100% members, the reporter reports zero usable
experiments (and no zero-filled average). -/
theorem c8_single_class_excluded :
    (∀ (exps : List Experiment) (e : Experiment), e ∈ exps →
        (posCount e = 0 ∨ negCount e = 0) →
        e ∉ exps.filter usable
          ∧ e ∈ (get_average_audit_results exps).diagnostics)
      ∧ (∀ e : Experiment, (∀ p ∈ e, p.2 = true) →
        (get_average_audit_results [e]).numUsable = 0
          ∧ (get_average_audit_results [e]).avgAuc = none) := by
  have husable : ∀ e : Experiment, posCount e = 0 ∨ negCount e = 0 →
      usable e = false := by
    intro e h
    cases h with
    | inl h => simp [usable, h]
    | inr h => simp [usable, h]
  constructor
  · intro exps e he h
    constructor
    · intro hmem
      have := (List.mem_filter.mp hmem).2
      rw [husable e h] at this
      exact Bool.false_ne_true this
    · simp only [get_average_audit_results]
      exact List.mem_filter.mpr ⟨he, by rw [husable e h]; rfl⟩
  · intro e hall
    have hneg : negCount e = 0 := by
      unfold negCount
      rw [List.filter_eq_nil_iff.mpr]
      · rfl
      · intro p hp
        rw [hall p hp]
        simp
    have hu : usable e = false := husable e (Or.inr hneg)
    constructor
    · simp [get_average_audit_results, hu]
    · simp [get_average_audit_results, hu]

/-- Witness for C8 at a concrete all-member experiment `[(1, true)]`. -/
theorem c8_single_class_excluded_witness :
    (([(1, true)] : Experiment) ∉
        ([[(1, true)]] : List Experiment).filter usable
      ∧ ([(1, true)] : Experiment)
        ∈ (get_average_audit_results [[(1, true)]]).diagnostics)
      ∧ ((get_average_audit_results [[(1, true)]]).numUsable = 0
        ∧ (get_average_audit_results [[(1, true)]]).avgAuc = none) :=
  ⟨c8_single_class_excluded.1 [[(1, true)]] [(1, true)]
      (List.mem_singleton.mpr rfl) (Or.inr rfl),
   c8_single_class_excluded.2 [(1, true)]
      (fun p hp => by rw [List.mem_singleton.mp hp])⟩

/-- Witness for the amended C10: an environment that binds
`audit_models_range`, two experiments, all external calls succeeding. -/
theorem c10_average_iff_audit_resolves_witness :
    (averagingInvoked (runMainWith (fun _ => true) ⟨2, 1, 5⟩
          ⟨true, true, true, true, true, true, true⟩) = true
        ↔ 1 < (⟨2, 1, 5⟩ : RunConfig).numExperiments)
      ∧ ((⟨2, 1, 5⟩ : RunConfig).numExperiments = 1 →
        averagingInvoked (runMainWith (fun _ => true) ⟨2, 1, 5⟩
          ⟨true, true, true, true, true, true, true⟩) = false) :=
  c10_average_iff_audit_resolves (fun _ => true) ⟨2, 1, 5⟩
    ⟨true, true, true, true, true, true, true⟩ rfl
    ⟨rfl, rfl, rfl, rfl, rfl, rfl⟩ rfl

end RangeMia
